import Mathlib

/-!
Verification of `src/networks/rnn_module.py` (class `GRUModule`).

The module wraps an external stacked-GRU recurrence (`nn.GRU`) plus a
post-recurrence layer norm, and implements a mask-driven chunked recurrence
over batched sequences.  The embedding below models:

* scalar tensor entries as rationals (`ℚ`);
* the input sequence `x` of tensor shape `(T, B, input_dim)` as
  `List (List (List ℚ))` (time outer, batch inner, features innermost);
* the running hidden tensor of shape `(num_layers, B, hidden_dim)`
  reindexed batch-first as a `List` of `B` per-column states, each a
  `List` of `num_layers` vectors of length `hidden_dim`.  The GRU
  recurrence treats batch columns independently, so this transposed
  layout carries exactly the same data; every elementwise operation of
  the source (the mask broadcast `rnn_states * masks[t].view(1, -1, 1)`,
  which multiplies `H[l][b][d]` by `masks[t][b]`) is translated as the
  corresponding elementwise operation on the transposed layout, and the
  tensor sizes `size(0) = num_layers`, `size(1) = batch`,
  `size(2) = hidden_dim` are read off accordingly;
* the external recurrence primitive (`nn.GRU`, treated as a black box by
  the spec) as an arbitrary per-timestep, per-column cell
  `Cell : Vec → ColHid → Vec × ColHid`; running it over a sub-sequence is
  the sequential application over time, mapped independently over the
  batch columns — exactly the mathematical contract of the primitive;
* the external layer-norm primitive as an arbitrary per-feature-vector
  function `ln : Vec → Vec` mapped over every `(t, b)` output vector;
* the `assert` statements of `forward` as an `Except ShapeError` result,
  where each `ShapeError` constructor records which dimension mismatched
  together with the expected and the actual value, mirroring the assert
  messages of the source.
-/

namespace RNN

/-- One feature vector (innermost tensor axis). -/
abbrev Vec := List ℚ

/-- One timestep of a batched sequence: `B` feature vectors. -/
abbrev Row := List Vec

/-- A batched sequence, time-major: `T` rows. -/
abbrev Rows := List Row

/-- The stacked hidden state of a single batch column: `num_layers`
vectors of length `hidden_dim`. -/
abbrev ColHid := List Vec

/-- The full hidden state, reindexed batch-first: `B` per-column states
(the source tensor has shape `(num_layers, B, hidden_dim)`). -/
abbrev Hidden := List ColHid

/-- A mask tensor of shape `(T, B)`: one scalar row per timestep. -/
abbrev MRows := List (List ℚ)

/-- The external GRU recurrence primitive, per timestep and per batch
column: from one input vector and the column's stacked hidden state to
the column's output vector and its new stacked hidden state. -/
abbrev Cell := Vec → ColHid → Vec × ColHid

/-- Multiply every entry of a vector by a scalar. -/
def vecScale (q : ℚ) (v : Vec) : Vec := v.map (fun t => q * t)

/-- Multiply every entry of one column's stacked hidden state by a scalar. -/
def colScale (q : ℚ) (c : ColHid) : ColHid := c.map (vecScale q)

/-- The mask broadcast of the source,
`rnn_states * masks[t].view(1, -1, 1)`: column `b` of the hidden state is
multiplied elementwise by the scalar `masks[t][b]` (broadcast over layers
and hidden features). -/
def maskHidden (m : List ℚ) (h : Hidden) : Hidden :=
  List.zipWith colScale m h

/-- One batched timestep of the recurrence primitive: the cell applied
independently to every batch column. -/
def gruStepRow (cell : Cell) (xr : Row) (h : Hidden) : Row × Hidden :=
  let ys := List.zipWith cell xr h
  (ys.map Prod.fst, ys.map Prod.snd)

/-- The recurrence primitive run over a (sub-)sequence: sequential over
time, threading the hidden state; returns the output rows and the ending
hidden state (the contract of `self.gru(x, h0)`). -/
def gruSeq (cell : Cell) : Rows → Hidden → Rows × Hidden
  | [], h => ([], h)
  | xr :: xs, h =>
    let p := gruStepRow cell xr h
    let q := gruSeq cell xs p.2
    (p.1 :: q.1, q.2)

/-- The contract-violation errors of `forward`'s assert statements; each
constructor records the dimension that mismatched, with the expected and
the actual value (mirroring the assert messages of the source). -/
inductive ShapeError where
  /-- `Expected input dimension {input_dim}, got {...}` -/
  | inputDim (expected got : Nat)
  /-- `Expected {num_layers} RNN layers, got {rnn_states.size(0)}` -/
  | numLayers (expected got : Nat)
  /-- `Expected hidden dimension {hidden_dim}, got {rnn_states.size(2)}` -/
  | hiddenDim (expected got : Nat)
  /-- `Batch size mismatch: x has {batch_size}, rnn_states has {...}` -/
  | batchMismatch (x got : Nat)
deriving DecidableEq, Repr

/-- The argument `x` of `forward`: rank 2 `(B, input_dim)` for a single
step, or rank 3 `(T, B, input_dim)`. -/
inductive XInput where
  | x2 (r : Row)
  | x3 (rows : Rows)
deriving DecidableEq

/-- The argument `masks` of `forward`: `(B, 1)`-shaped for a single step
(the trailing size-1 axis carries no data and is dropped), or
`(T, B, 1)`-shaped. -/
inductive MInput where
  | m2 (r : List ℚ)
  | m3 (rows : MRows)
deriving DecidableEq

/-- The first result of `forward`: rank 2 `(B, hidden_dim)` on the
single-step path (the time axis is squeezed away), rank 3
`(T, B, hidden_dim)` on the multi-step path. -/
inductive Output where
  | out2 (r : Row)
  | out3 (rows : Rows)
deriving DecidableEq

/-- `x.size(1)` of a rank-2 tensor `(B, input_dim)` held as `B` vectors. -/
def rSize1 (r : Row) : Nat := (r.headD []).length

/-- `x.size(1)` of a rank-3 tensor `(T, B, input_dim)`: the batch size. -/
def xSize1 (x : Rows) : Nat := (x.headD []).length

/-- `x.size(2)` of a rank-3 tensor `(T, B, input_dim)`: the feature size. -/
def xSize2 (x : Rows) : Nat := ((x.headD []).headD []).length

/-- `rnn_states.size(0)`: the layer count, read off the per-column layer
count of the batch-first layout. -/
def hSize0 (h : Hidden) : Nat := (h.headD []).length

/-- `rnn_states.size(1)`: the batch size. -/
def hSize1 (h : Hidden) : Nat := h.length

/-- `rnn_states.size(2)`: the hidden feature size. -/
def hSize2 (h : Hidden) : Nat := ((h.headD []).headD []).length

/-- The split indices of the multi-step path:
`has_zeros = ((masks[1:] == 0.0).any(dim=-1).nonzero().squeeze())`, each
index incremented by one.  Row `0` is never scanned; an index `t` is
collected exactly when mask row `t` (for `1 ≤ t < T`) contains a zero in
any batch column. -/
def splitIndices (m : MRows) : List Nat :=
  ((List.range (m.length - 1)).filter
    (fun i => (m.getD (i + 1) []).any (fun q => decide (q = 0)))).map
    (fun i => i + 1)

/-- The boundary list `has_zeros = [0] + has_zeros + [seq_len]`. -/
def boundaries (m : MRows) (T : Nat) : List Nat :=
  0 :: (splitIndices m ++ [T])

/-- The chunk loop of the multi-step path: for each adjacent boundary
pair `(start_idx, end_idx)`, mask the current hidden state by the mask
row at `start_idx`, run the recurrence over `x[start_idx:end_idx]`, save
the chunk's output rows and carry the ending hidden state into the next
chunk. -/
def runChunks (cell : Cell) (x : Rows) (m : MRows) :
    List Nat → Hidden → List Rows × Hidden
  | s :: e :: rest, h =>
    let temp := maskHidden (m.getD s []) h
    let p := gruSeq cell ((x.drop s).take (e - s)) temp
    let q := runChunks cell x m (e :: rest) p.2
    (p.1 :: q.1, q.2)
  | _, h => ([], h)

/-- The multi-step path of `forward` (training): chunk the time axis at
the boundary list, run the chunk loop, concatenate the chunk outputs and
apply the layer norm to every output vector. -/
def forwardMulti (cell : Cell) (ln : Vec → Vec) (x : Rows) (rnn_states : Hidden)
    (masks : MRows) : Rows × Hidden :=
  let p := runChunks cell x masks (boundaries masks x.length) rnn_states
  (p.1.flatten.map (fun r => r.map ln), p.2)

/-- `masks.view(1, -1, 1)` of the single-step path: the mask flattened to
one scalar per batch column. -/
def flattenMask : MInput → List ℚ
  | .m2 r => r
  | .m3 rows => rows.flatten

/-- `masks.view(seq_len, batch_size)` of the multi-step path: on a
well-shaped `(T, B, 1)` mask this is the identity on the rows. -/
def toRows : MInput → MRows
  | .m2 r => [r]
  | .m3 rows => rows

/-- The single-step path of `forward` (rollout): mask the hidden states,
run one recurrence update, squeeze the time axis and apply the layer
norm. -/
def forwardSingle (cell : Cell) (ln : Vec → Vec) (xr : Row)
    (rnn_states : Hidden) (mflat : List ℚ) : Row × Hidden :=
  let temp := maskHidden mflat rnn_states
  let p := gruSeq cell [xr] temp
  ((p.1.headD []).map ln, p.2)

/-- The `GRUModule` instance: its configured dimensions, the dropout
probability actually handed to the recurrence primitive, and the two
external learned primitives (the recurrence cell and the layer norm),
which stand for the module's weights. -/
structure GRUModule where
  input_dim : Nat
  hidden_dim : Nat
  num_layers : Nat
  gruDropout : ℚ
  cell : Cell
  ln : Vec → Vec

/-- `GRUModule.__init__`: stores the dimensions and constructs the
recurrence with `dropout=dropout if num_layers > 1 else 0.0`.  (Weight
initialization mutates only the external primitives and is out of scope;
the constructed cell and layer norm are taken as given.) -/
def GRUModule.init (input_dim hidden_dim num_layers : Nat) (dropout : ℚ)
    (cell : Cell) (ln : Vec → Vec) : GRUModule :=
  { input_dim := input_dim
    hidden_dim := hidden_dim
    num_layers := num_layers
    gruDropout := if 1 < num_layers then dropout else 0
    cell := cell
    ln := ln }

/-- The body of `forward` after input promotion: the three `assert`s on
`rnn_states` and the batch size, then the dispatch on
`is_single_step = x.size(0) == 1`. -/
def forwardChecked (mod : GRUModule) (x : Rows) (rnn_states : Hidden)
    (masks : MInput) : Except ShapeError (Output × Hidden) :=
  if hSize0 rnn_states ≠ mod.num_layers then
    .error (.numLayers mod.num_layers (hSize0 rnn_states))
  else if hSize2 rnn_states ≠ mod.hidden_dim then
    .error (.hiddenDim mod.hidden_dim (hSize2 rnn_states))
  else if hSize1 rnn_states ≠ xSize1 x then
    .error (.batchMismatch (xSize1 x) (hSize1 rnn_states))
  else if x.length = 1 then
    let p := forwardSingle mod.cell mod.ln (x.headD []) rnn_states (flattenMask masks)
    .ok (.out2 p.1, p.2)
  else
    let p := forwardMulti mod.cell mod.ln x rnn_states (toRows masks)
    .ok (.out3 p.1, p.2)

/-- `GRUModule.forward(x, rnn_states, masks)`: assert the input feature
dimension (promoting a rank-2 `x` to a length-1 sequence), then run the
checked body.  A rank-3 `x` satisfies `x.dim() == 3` by construction of
`XInput`. -/
def GRUModule.forward (mod : GRUModule) (x : XInput) (rnn_states : Hidden)
    (masks : MInput) : Except ShapeError (Output × Hidden) :=
  match x with
  | .x2 xr =>
    if rSize1 xr ≠ mod.input_dim then
      .error (.inputDim mod.input_dim (rSize1 xr))
    else
      forwardChecked mod [xr] rnn_states masks
  | .x3 xs =>
    if xSize2 xs ≠ mod.input_dim then
      .error (.inputDim mod.input_dim (xSize2 xs))
    else
      forwardChecked mod xs rnn_states masks

/-- `init_hidden(batch_size)`: a zero hidden state of tensor shape
`(num_layers, batch_size, hidden_dim)`, batch-first in this layout. -/
def GRUModule.init_hidden (mod : GRUModule) (batch_size : Nat) : Hidden :=
  List.replicate batch_size
    (List.replicate mod.num_layers (List.replicate mod.hidden_dim 0))

/-- Whether a `forward` call returned without a contract error. -/
def exceptOk {α : Type} : Except ShapeError α → Bool
  | .ok _ => true
  | .error _ => false

/-- The feature dimension that the first assert of `forward` compares
against `input_dim`: `x.size(1)` for rank-2 input, `x.size(2)` for
rank-3 input. -/
def inDim : XInput → Nat
  | .x2 r => rSize1 r
  | .x3 xs => xSize2 xs

/-- The rows of `x` after the rank-2 promotion `x.view(1, -1, input_dim)`. -/
def promotedRows : XInput → Rows
  | .x2 r => [r]
  | .x3 xs => xs

/-- The tensor shape of a mask argument (row lengths). -/
def mshape : MInput → List Nat
  | .m2 r => [r.length]
  | .m3 rows => rows.map List.length

/-- The reference harness of the step/chunk-equivalence property: invoke
the single-step path once per timestep, feeding row `t` of `x` and row
`t` of the mask, threading the returned hidden state into the next call
(the spec's "running the single-step path `time` times in a loop"). -/
def singleLoop (cell : Cell) (ln : Vec → Vec) : Rows → Hidden → MRows → Rows × Hidden
  | [], h, _ => ([], h)
  | xr :: xs, h, ms =>
    let p := forwardSingle cell ln xr h (ms.headD [])
    let q := singleLoop cell ln xs p.2 ms.tail
    (p.1 :: q.1, q.2)

/-- The per-step masked recurrence without the layer norm: at every
timestep the hidden state is masked by that timestep's mask row before
the recurrence update (proof-internal common form of both paths). -/
def maskedScan (cell : Cell) : Rows → Hidden → MRows → Rows × Hidden
  | [], h, _ => ([], h)
  | xr :: xs, h, ms =>
    let p := gruStepRow cell xr (maskHidden (ms.headD []) h)
    let q := maskedScan cell xs p.2 ms.tail
    (p.1 :: q.1, q.2)

/-- The hidden-state update performed by one chunk `p = (start, end)` of
the chunk loop: mask the carried state by the mask row at the chunk's
start index, run the recurrence over `x[start:end]`, keep the ending
state. -/
def chunkStep (cell : Cell) (x : Rows) (m : MRows) (h : Hidden)
    (p : Nat × Nat) : Hidden :=
  (gruSeq cell ((x.drop p.1).take (p.2 - p.1)) (maskHidden (m.getD p.1 []) h)).2

/-- The output rows produced by one chunk `p = (start, end)` of the chunk
loop from carried state `h`. -/
def chunkOut (cell : Cell) (x : Rows) (m : MRows) (h : Hidden)
    (p : Nat × Nat) : Rows :=
  (gruSeq cell ((x.drop p.1).take (p.2 - p.1)) (maskHidden (m.getD p.1 []) h)).1

/-- `size(0)` of the output tensor of `forward`: the batch size for the
squeezed rank-2 single-step output, the time length for the rank-3
multi-step output. -/
def outSize0 : Output → Nat
  | .out2 r => r.length
  | .out3 rows => rows.length

/-- `size(0)` of the output of a successful `forward` call. -/
def okOutSize0 : Except ShapeError (Output × Hidden) → Option Nat
  | .ok (y, _) => some (outSize0 y)
  | .error _ => none

/-- The batch of output vectors at time `t`: the single-step rank-2
output is the row at time `0`. -/
def outRowAt : Output → Nat → Option Row
  | .out2 r, 0 => some r
  | .out2 _, _ + 1 => none
  | .out3 rows, t => rows[t]?

/-- The batch of output vectors at time `t` of a successful call. -/
def okOutRowAt (r : Except ShapeError (Output × Hidden)) (t : Nat) : Option Row :=
  match r with
  | .ok (y, _) => outRowAt y t
  | .error _ => none

/-- One column's stacked hidden state has `L` layers of `D` features. -/
def ColShape (L D : Nat) (c : ColHid) : Prop :=
  c.length = L ∧ ∀ v ∈ c, v.length = D

/-- Every column of a hidden state has `L` layers of `D` features. -/
def HColsShape (L D : Nat) (h : Hidden) : Prop := ∀ c ∈ h, ColShape L D c

/-- A hidden state of tensor shape `(L, B, D)` (batch-first layout). -/
def HShape (L B D : Nat) (h : Hidden) : Prop :=
  h.length = B ∧ HColsShape L D h

/-- An input sequence of tensor shape `(T, B, I)` (row count left free). -/
def XShape (B I : Nat) (x : Rows) : Prop :=
  ∀ r ∈ x, r.length = B ∧ ∀ v ∈ r, v.length = I

/-- A mask of tensor shape `(T, B)` (row count left free). -/
def MShape (B : Nat) (m : MRows) : Prop := ∀ r ∈ m, r.length = B

/-- The shape contract of the recurrence primitive with `L` layers of
hidden size `D`: every per-column update yields an output vector of
length `D` and a stacked hidden state of `L` layers of `D` features. -/
def CellShape (L D : Nat) (cell : Cell) : Prop :=
  ∀ v c, (cell v c).1.length = D ∧ ColShape L D (cell v c).2

/-- The shape contract of the layer-norm primitive: it preserves vector
length. -/
def LnLen (ln : Vec → Vec) : Prop := ∀ v, (ln v).length = v.length

/-- Two hidden states that agree on every batch column except
(possibly) column `b`. -/
def AgreeOff (b : Nat) (h1 h2 : Hidden) : Prop :=
  h1.length = h2.length ∧ ∀ c, c ≠ b → h1[c]? = h2[c]?

/-! ### Basic lemmas about the elementwise operations -/

theorem vecScale_one (v : Vec) : vecScale 1 v = v := by
  simp [vecScale]

theorem colScale_one (c : ColHid) : colScale 1 c = c := by
  induction c with
  | nil => rfl
  | cons v cs ih =>
    simp only [colScale, List.map_cons] at ih ⊢
    rw [vecScale_one, ih]

theorem vecScale_zero (v : Vec) : vecScale 0 v = List.replicate v.length 0 := by
  simp [vecScale, List.eq_replicate_iff]

theorem colScale_length (q : ℚ) (c : ColHid) : (colScale q c).length = c.length := by
  simp [colScale]

theorem maskHidden_length (m : List ℚ) (h : Hidden) :
    (maskHidden m h).length = min m.length h.length := by
  simp [maskHidden]

theorem maskHidden_ones (m : List ℚ) (h : Hidden) (hq : ∀ q ∈ m, q = 1)
    (hl : h.length ≤ m.length) : maskHidden m h = h := by
  induction m generalizing h with
  | nil =>
    have : h = [] := List.length_eq_zero.mp (Nat.le_zero.mp hl)
    subst this; rfl
  | cons q m ih =>
    cases h with
    | nil => rfl
    | cons c cs =>
      have h1 : q = 1 := hq q (by simp)
      have h2 : maskHidden m cs = cs :=
        ih cs (fun r hr => hq r (by simp [hr])) (by simpa using hl)
      simpa [maskHidden, h1, colScale_one] using h2

theorem maskHidden_getElem? (m : List ℚ) (h : Hidden) (b : Nat) :
    (maskHidden m h)[b]? = Option.map₂ colScale m[b]? h[b]? := by
  unfold maskHidden
  rw [List.getElem?_zipWith]
  rcases m[b]? with _ | q <;> rcases h[b]? with _ | c <;> rfl

/-! ### Basic lemmas about the recurrence primitive -/

theorem gruStepRow_fst_length (cell : Cell) (xr : Row) (h : Hidden) :
    (gruStepRow cell xr h).1.length = min xr.length h.length := by
  simp [gruStepRow]

theorem gruStepRow_snd_length (cell : Cell) (xr : Row) (h : Hidden) :
    (gruStepRow cell xr h).2.length = min xr.length h.length := by
  simp [gruStepRow]

theorem gruSeq_fst_length (cell : Cell) (xs : Rows) (h : Hidden) :
    (gruSeq cell xs h).1.length = xs.length := by
  induction xs generalizing h with
  | nil => rfl
  | cons xr xs ih => simp [gruSeq, ih]

theorem gruSeq_snd_length (cell : Cell) (xs : Rows) (h : Hidden) (B : Nat)
    (hB : h.length = B) (hx : ∀ r ∈ xs, r.length = B) :
    (gruSeq cell xs h).2.length = B := by
  induction xs generalizing h with
  | nil => simpa [gruSeq]
  | cons xr xs ih =>
    simp only [gruSeq]
    exact ih _ (by simp [gruStepRow_snd_length, hB, hx xr (by simp)])
      (fun r hr => hx r (by simp [hr]))

theorem gruSeq_append (cell : Cell) (a b : Rows) (h : Hidden) :
    gruSeq cell (a ++ b) h =
      ((gruSeq cell a h).1 ++ (gruSeq cell b (gruSeq cell a h).2).1,
        (gruSeq cell b (gruSeq cell a h).2).2) := by
  induction a generalizing h with
  | nil => simp [gruSeq]
  | cons xr xs ih => simp [gruSeq, ih]

/-! ### Concrete instances used by witnesses and counterexamples -/

/-- A concrete recurrence cell (one layer, one hidden feature). -/
def cellW : Cell := fun _ _ => ([0], [[0]])

/-- A concrete layer norm: the identity. -/
def lnW : Vec → Vec := fun v => v

/-- A concrete module: `input_dim = 1`, `hidden_dim = 1`, `num_layers = 1`. -/
def modW : GRUModule := GRUModule.init 1 1 1 0 cellW lnW

/-! ### Index/membership helpers -/

theorem getD_mem_of_lt (m : MRows) (t : Nat) (ht : t < m.length) :
    m.getD t [] ∈ m := by
  rw [List.getD_eq_getElem m [] ht]
  exact List.getElem_mem ht

theorem mem_drop_getD (m : MRows) (off : Nat) (r : List ℚ)
    (hr : r ∈ m.drop off) :
    ∃ t, off ≤ t ∧ t < m.length ∧ m.getD t [] = r := by
  obtain ⟨i, hi⟩ := List.mem_iff_getElem?.mp hr
  rw [List.getElem?_drop] at hi
  obtain ⟨hlt, heq⟩ := List.getElem?_eq_some.mp hi
  exact ⟨off + i, Nat.le_add_right off i, hlt,
    by rw [List.getD_eq_getElem m [] hlt]; exact heq⟩

theorem mem_take_drop_getD (m : MRows) (off k : Nat) (r : List ℚ)
    (hr : r ∈ (m.drop off).take k) :
    ∃ t, off ≤ t ∧ t < off + k ∧ t < m.length ∧ m.getD t [] = r := by
  obtain ⟨i, hi⟩ := List.mem_iff_getElem?.mp hr
  rw [List.getElem?_take] at hi
  by_cases hik : i < k
  · rw [if_pos hik, List.getElem?_drop] at hi
    obtain ⟨hlt, heq⟩ := List.getElem?_eq_some.mp hi
    refine ⟨off + i, Nat.le_add_right off i, by omega, hlt, ?_⟩
    rw [List.getD_eq_getElem m [] hlt]; exact heq
  · rw [if_neg hik] at hi
    cases hi

/-! ### The per-step scan and its relation to the chunk loop -/

theorem singleLoop_eq_maskedScan (cell : Cell) (ln : Vec → Vec) (x : Rows)
    (h : Hidden) (m : MRows) :
    singleLoop cell ln x h m =
      ((maskedScan cell x h m).1.map (List.map ln),
        (maskedScan cell x h m).2) := by
  induction x generalizing h m with
  | nil => rfl
  | cons xr xs ih =>
    simp only [singleLoop, maskedScan, forwardSingle, gruSeq, List.headD_cons,
      List.map_cons]
    rw [ih]

theorem maskedScan_ones (cell : Cell) (xs : Rows) (h : Hidden) (ms : MRows)
    (B : Nat) (hB : h.length = B) (hx : ∀ r ∈ xs, r.length = B)
    (hm : ∀ r ∈ ms, r.length = B) (hlen : ms.length = xs.length)
    (hones : ∀ r ∈ ms, ∀ q ∈ r, q = 1) :
    maskedScan cell xs h ms = gruSeq cell xs h := by
  induction xs generalizing h ms with
  | nil => rfl
  | cons xr xs ih =>
    cases ms with
    | nil => simp at hlen
    | cons mr ms' =>
      have hmask : maskHidden mr h = h :=
        maskHidden_ones mr h (hones mr (by simp))
          (by rw [hB, hm mr (by simp)])
      have hstep : (gruStepRow cell xr h).2.length = B := by
        rw [gruStepRow_snd_length, hx xr (by simp), hB]; omega
      have ihh := ih (gruStepRow cell xr h).2 ms' hstep
        (fun r hr => hx r (by simp [hr])) (fun r hr => hm r (by simp [hr]))
        (by simpa using hlen) (fun r hr => hones r (by simp [hr]))
      simp only [maskedScan, gruSeq, List.headD_cons, List.tail_cons, hmask, ihh]

theorem maskedScan_chunk (cell : Cell) (xr : Row) (xs : Rows) (h : Hidden)
    (mr : List ℚ) (ms : MRows) (B : Nat) (hB : h.length = B)
    (hmr : mr.length = B) (hxr : xr.length = B)
    (hx : ∀ r ∈ xs, r.length = B) (hm : ∀ r ∈ ms, r.length = B)
    (hlen : ms.length = xs.length) (hones : ∀ r ∈ ms, ∀ q ∈ r, q = 1) :
    maskedScan cell (xr :: xs) h (mr :: ms) =
      gruSeq cell (xr :: xs) (maskHidden mr h) := by
  have hstep : (gruStepRow cell xr (maskHidden mr h)).2.length = B := by
    rw [gruStepRow_snd_length, maskHidden_length, hxr, hmr, hB]; omega
  simp only [maskedScan, gruSeq, List.headD_cons, List.tail_cons]
  rw [maskedScan_ones cell xs (gruStepRow cell xr (maskHidden mr h)).2 ms B
    hstep hx hm hlen hones]

theorem maskedScan_append (cell : Cell) (a b : Rows) (h : Hidden)
    (ms1 ms2 : MRows) (hlen : ms1.length = a.length) :
    maskedScan cell (a ++ b) h (ms1 ++ ms2) =
      ((maskedScan cell a h ms1).1 ++
          (maskedScan cell b (maskedScan cell a h ms1).2 ms2).1,
        (maskedScan cell b (maskedScan cell a h ms1).2 ms2).2) := by
  induction a generalizing h ms1 with
  | nil =>
    cases ms1 with
    | nil => simp [maskedScan]
    | cons _ _ => simp at hlen
  | cons xr xs ih =>
    cases ms1 with
    | nil => simp at hlen
    | cons mr ms1' =>
      simp only [List.cons_append, maskedScan, List.headD_cons, List.tail_cons,
        List.append_eq]
      rw [ih _ _ (by simpa using hlen)]

/-! ### Shape propagation -/

theorem mem_zipWith_ex {α β γ : Type} (f : α → β → γ) :
    ∀ (as : List α) (bs : List β) (c : γ), c ∈ List.zipWith f as bs →
      ∃ a b, a ∈ as ∧ b ∈ bs ∧ c = f a b := by
  intro as
  induction as with
  | nil => intro bs c hc; simp at hc
  | cons a as ih =>
    intro bs c hc
    cases bs with
    | nil => simp at hc
    | cons b bs =>
      rcases List.mem_cons.mp hc with rfl | hc
      · exact ⟨a, b, by simp, by simp, rfl⟩
      · obtain ⟨a', b', ha', hb', hco⟩ := ih bs c hc
        exact ⟨a', b', by simp [ha'], by simp [hb'], hco⟩

theorem colScale_shape (L D : Nat) (q : ℚ) (c : ColHid)
    (hc : ColShape L D c) : ColShape L D (colScale q c) := by
  obtain ⟨hl, hv⟩ := hc
  refine ⟨by simpa [colScale] using hl, ?_⟩
  intro v hv'
  obtain ⟨u, hu, rfl⟩ := List.mem_map.mp hv'
  simpa [vecScale] using hv u hu

theorem maskHidden_cols_shape (L D : Nat) (m : List ℚ) (h : Hidden)
    (hh : HColsShape L D h) : HColsShape L D (maskHidden m h) := by
  intro c hc
  obtain ⟨q, c', _, hc', rfl⟩ := mem_zipWith_ex colScale m h c hc
  exact colScale_shape L D q c' (hh c' hc')

theorem gruStepRow_fst_shape (L D : Nat) (cell : Cell)
    (hc : CellShape L D cell) (xr : Row) (h : Hidden) :
    ∀ v ∈ (gruStepRow cell xr h).1, v.length = D := by
  intro v hv
  simp only [gruStepRow] at hv
  obtain ⟨p, hp, rfl⟩ := List.mem_map.mp hv
  obtain ⟨a, b, _, _, rfl⟩ := mem_zipWith_ex cell xr h p hp
  exact (hc a b).1

theorem gruStepRow_snd_shape (L D : Nat) (cell : Cell)
    (hc : CellShape L D cell) (xr : Row) (h : Hidden) :
    HColsShape L D (gruStepRow cell xr h).2 := by
  intro c hcm
  simp only [gruStepRow] at hcm
  obtain ⟨p, hp, rfl⟩ := List.mem_map.mp hcm
  obtain ⟨a, b, _, _, rfl⟩ := mem_zipWith_ex cell xr h p hp
  exact (hc a b).2

theorem gruSeq_shapes (L D B : Nat) (cell : Cell) (hc : CellShape L D cell)
    (xs : Rows) (h : Hidden) (hB : h.length = B)
    (hx : ∀ r ∈ xs, r.length = B) (hh : HColsShape L D h) :
    (∀ r ∈ (gruSeq cell xs h).1, r.length = B ∧ ∀ v ∈ r, v.length = D) ∧
      (gruSeq cell xs h).2.length = B ∧
      HColsShape L D (gruSeq cell xs h).2 := by
  induction xs generalizing h with
  | nil => exact ⟨by simp [gruSeq], by simpa [gruSeq], by simpa [gruSeq]⟩
  | cons xr xs ih =>
    have hstepB : (gruStepRow cell xr h).2.length = B := by
      rw [gruStepRow_snd_length, hx xr (by simp), hB]; omega
    obtain ⟨o1, o2, o3⟩ := ih (gruStepRow cell xr h).2 hstepB
      (fun r hr => hx r (by simp [hr]))
      (gruStepRow_snd_shape L D cell hc xr h)
    simp only [gruSeq]
    refine ⟨?_, o2, o3⟩
    intro r hr
    rcases List.mem_cons.mp hr with rfl | hr
    · refine ⟨by rw [gruStepRow_fst_length, hx xr (by simp), hB]; omega, ?_⟩
      exact gruStepRow_fst_shape L D cell hc xr h
    · exact o1 r hr

theorem runChunks_shapes (L D B : Nat) (cell : Cell) (hc : CellShape L D cell)
    (x : Rows) (m : MRows) (hx : ∀ r ∈ x, r.length = B)
    (hm : ∀ r ∈ m, r.length = B) (hTm : m.length = x.length) :
    ∀ (bs : List Nat) (h : Hidden), List.Chain' (· < ·) bs →
      (∀ n ∈ bs, n ≤ x.length) → h.length = B → HColsShape L D h →
      ((∀ r ∈ (runChunks cell x m bs h).1.flatten,
          r.length = B ∧ ∀ v ∈ r, v.length = D) ∧
        (runChunks cell x m bs h).2.length = B ∧
        HColsShape L D (runChunks cell x m bs h).2) := by
  intro bs
  induction bs with
  | nil => intro h _ _ hB hh; exact ⟨by simp [runChunks], hB, hh⟩
  | cons s rest ih =>
    cases rest with
    | nil => intro h _ _ hB hh; exact ⟨by simp [runChunks], hB, hh⟩
    | cons e rest' =>
      intro h hch hle hB hh
      have hse : s < e := (List.chain'_cons.mp hch).1
      have heT : e ≤ x.length := hle e (by simp)
      have hsm : s < m.length := by omega
      have hmask_len : (maskHidden (m.getD s []) h).length = B := by
        rw [maskHidden_length, hm _ (getD_mem_of_lt m s hsm), hB]; omega
      obtain ⟨hg1, hg2, hg3⟩ := gruSeq_shapes L D B cell hc
        ((x.drop s).take (e - s)) (maskHidden (m.getD s []) h) hmask_len
        (fun r hr => hx r (List.mem_of_mem_drop (List.mem_of_mem_take hr)))
        (maskHidden_cols_shape L D (m.getD s []) h hh)
      obtain ⟨hr1, hr2, hr3⟩ := ih
        (gruSeq cell ((x.drop s).take (e - s)) (maskHidden (m.getD s []) h)).2
        (List.Chain'.tail hch) (fun n hn => hle n (by simp [hn])) hg2 hg3
      simp only [runChunks, List.flatten_cons]
      refine ⟨?_, hr2, hr3⟩
      intro r hr
      rcases List.mem_append.mp hr with hr | hr
      · exact hg1 r hr
      · exact hr1 r hr

theorem le_getLastD_of_chain (l : List Nat) (a : Nat)
    (h : List.Chain' (· ≤ ·) (a :: l)) : a ≤ l.getLastD a := by
  induction l generalizing a with
  | nil => simp [List.getLastD]
  | cons b l ih =>
    obtain ⟨hab, hch⟩ := List.chain'_cons.mp h
    have := ih b hch
    rw [List.getLastD_cons]
    omega

theorem runChunks_flatten_length (cell : Cell) (x : Rows) (m : MRows) :
    ∀ (rest : List Nat) (s : Nat) (h : Hidden),
      List.Chain' (· ≤ ·) (s :: rest) → (∀ n ∈ rest, n ≤ x.length) →
      s ≤ x.length →
      ((runChunks cell x m (s :: rest) h).1.flatten).length =
        rest.getLastD s - s := by
  intro rest
  induction rest with
  | nil => intro s h _ _ _; simp [runChunks, List.getLastD]
  | cons e rest' ih =>
    intro s h hch hle hsT
    have hse : s ≤ e := (List.chain'_cons.mp hch).1
    have heT : e ≤ x.length := hle e (by simp)
    have hel : e ≤ rest'.getLastD e :=
      le_getLastD_of_chain rest' e (List.Chain'.tail hch)
    simp only [runChunks, List.flatten_cons, List.length_append]
    rw [gruSeq_fst_length,
      ih e _ (List.Chain'.tail hch) (fun n hn => hle n (by simp [hn])) heT,
      List.getLastD_cons]
    simp only [List.length_take, List.length_drop]
    omega

/-! ### The chunk-boundary scan -/

theorem mem_splitIndices (m : MRows) (t : Nat) :
    t ∈ splitIndices m ↔ 1 ≤ t ∧ t < m.length ∧ ∃ q ∈ m.getD t [], q = 0 := by
  unfold splitIndices
  simp only [List.mem_map, List.mem_filter, List.mem_range]
  constructor
  · rintro ⟨i, ⟨hi, hz⟩, rfl⟩
    refine ⟨Nat.le_add_left 1 i, by omega, ?_⟩
    simpa [List.any_eq_true, decide_eq_true_eq] using hz
  · rintro ⟨h1, h2, q, hq, hq0⟩
    refine ⟨t - 1, ⟨by omega, ?_⟩, by omega⟩
    rw [show t - 1 + 1 = t by omega]
    simp only [List.any_eq_true, decide_eq_true_eq]
    exact ⟨q, hq, hq0⟩

theorem splitIndices_chain (m : MRows) :
    List.Chain' (· < ·) (splitIndices m) := by
  apply List.Pairwise.chain'
  unfold splitIndices
  rw [List.pairwise_map]
  exact List.Pairwise.imp (fun h => by omega)
    ((List.pairwise_lt_range _).filter _)

theorem boundaries_chain (m : MRows) (T : Nat) (hT : 0 < T)
    (hm : m.length ≤ T) : List.Chain' (· < ·) (boundaries m T) := by
  apply List.Pairwise.chain'
  unfold boundaries
  rw [List.pairwise_cons]
  constructor
  · intro b hb
    rcases List.mem_append.mp hb with hsp | hT'
    · have := (mem_splitIndices m b).mp hsp; omega
    · simp only [List.mem_singleton] at hT'; omega
  · rw [List.pairwise_append]
    refine ⟨List.chain'_iff_pairwise.mp (splitIndices_chain m), by simp, ?_⟩
    intro a ha b hb
    have h1 := (mem_splitIndices m a).mp ha
    simp only [List.mem_singleton] at hb
    omega

theorem chunksJoin (l : List Nat) : ∀ a : Nat, List.Chain' (· ≤ ·) (a :: l) →
    (((a :: l).zip l).map (fun p => List.range' p.1 (p.2 - p.1))).flatten =
      List.range' a (l.getLastD a - a) := by
  induction l with
  | nil => intro a _; simp [List.getLastD]
  | cons b l ih =>
    intro a hch
    obtain ⟨hab, hch'⟩ := List.chain'_cons.mp hch
    have hbl : b ≤ l.getLastD b := le_getLastD_of_chain l b hch'
    simp only [List.zip_cons_cons, List.map_cons, List.flatten_cons]
    rw [ih b hch', List.getLastD_cons]
    have h1 := List.range'_append a (b - a) (l.getLastD b - b) 1
    rw [show a + 1 * (b - a) = b by omega] at h1
    rw [show l.getLastD b - b + (b - a) = l.getLastD b - a by omega] at h1
    exact h1

/-- The chunk loop started at boundary `s`, with split list `splits`
covering all the remaining zero rows, computes exactly the per-step
masked recurrence over the suffix from `s`. -/
theorem runChunks_eq_maskedScan (cell : Cell) (x : Rows) (m : MRows) (B : Nat)
    (hx : ∀ r ∈ x, r.length = B) (hm : ∀ r ∈ m, r.length = B)
    (hTm : m.length = x.length) :
    ∀ (splits : List Nat) (s : Nat) (h : Hidden),
      s < x.length →
      (∀ t ∈ splits, s < t ∧ t < x.length) →
      List.Chain' (· < ·) splits →
      (∀ t, s < t → t < x.length → t ∉ splits → ∀ q ∈ m.getD t [], q = 1) →
      h.length = B →
      ((runChunks cell x m (s :: (splits ++ [x.length])) h).1.flatten,
        (runChunks cell x m (s :: (splits ++ [x.length])) h).2) =
        maskedScan cell (x.drop s) h (m.drop s) := by
  intro splits
  induction splits with
  | nil =>
    intro s h hs _ _ hint hB
    have hsm : s < m.length := by omega
    have htake : (x.drop s).take (x.length - s) = x.drop s :=
      List.take_of_length_le (by simp [List.length_drop])
    have hxd : x.drop s = x[s] :: x.drop (s + 1) :=
      List.drop_eq_getElem_cons (by omega)
    have hmd : m.drop s = m[s] :: m.drop (s + 1) :=
      List.drop_eq_getElem_cons hsm
    have hones : ∀ r ∈ m.drop (s + 1), ∀ q ∈ r, q = 1 := by
      intro r hr
      obtain ⟨t, ht1, ht2, ht3⟩ := mem_drop_getD m (s + 1) r hr
      exact ht3 ▸ hint t (by omega) (by omega) (List.not_mem_nil t)
    have hchunk := maskedScan_chunk cell (x[s]) (x.drop (s + 1)) h (m[s])
      (m.drop (s + 1)) B hB (hm _ (List.getElem_mem hsm))
      (hx _ (List.getElem_mem (by omega)))
      (fun r hr => hx r (List.mem_of_mem_drop hr))
      (fun r hr => hm r (List.mem_of_mem_drop hr))
      (by simp only [List.length_drop]; omega) hones
    simp only [List.nil_append, runChunks, List.flatten_cons, List.flatten_nil,
      List.append_nil]
    rw [htake, List.getD_eq_getElem m [] hsm, hxd, hmd, hchunk, ← hxd]
  | cons t rest ih =>
    intro s h hs hbnd hch hint hB
    have hst : s < t ∧ t < x.length := hbnd t (by simp)
    have hsm : s < m.length := by omega
    have hrest_gt : ∀ u ∈ rest, t < u :=
      (List.pairwise_cons.mp (List.chain'_iff_pairwise.mp hch)).1
    have hp2len : (gruSeq cell ((x.drop s).take (t - s))
        (maskHidden (m.getD s []) h)).2.length = B := by
      apply gruSeq_snd_length
      · rw [maskHidden_length, hm _ (getD_mem_of_lt m s hsm), hB]; omega
      · intro r hr
        exact hx r (List.mem_of_mem_drop (List.mem_of_mem_take hr))
    have hIH := ih t (gruSeq cell ((x.drop s).take (t - s))
        (maskHidden (m.getD s []) h)).2 hst.2
      (fun u hu => ⟨hrest_gt u hu, (hbnd u (by simp [hu])).2⟩)
      hch.tail
      (fun u hu1 hu2 hu3 => hint u (by omega) hu2 (by
        intro hc
        rcases List.mem_cons.mp hc with hc | hc
        · omega
        · exact hu3 hc))
      hp2len
    have hdt : (x.drop s).drop (t - s) = x.drop t := by
      rw [List.drop_drop]; congr 1; omega
    have hdtm : (m.drop s).drop (t - s) = m.drop t := by
      rw [List.drop_drop]; congr 1; omega
    have hxsplit : x.drop s = (x.drop s).take (t - s) ++ x.drop t := by
      conv_lhs => rw [← List.take_append_drop (t - s) (x.drop s)]
      rw [hdt]
    have hmsplit : m.drop s = (m.drop s).take (t - s) ++ m.drop t := by
      conv_lhs => rw [← List.take_append_drop (t - s) (m.drop s)]
      rw [hdtm]
    have hA : maskedScan cell ((x.drop s).take (t - s)) h
        ((m.drop s).take (t - s)) =
        gruSeq cell ((x.drop s).take (t - s)) (maskHidden (m.getD s []) h) := by
      have hxd : x.drop s = x[s] :: x.drop (s + 1) :=
        List.drop_eq_getElem_cons (by omega)
      have hmd : m.drop s = m[s] :: m.drop (s + 1) :=
        List.drop_eq_getElem_cons hsm
      have hts : t - s = (t - s - 1) + 1 := by omega
      rw [hxd, hmd, hts, List.take_succ_cons, List.take_succ_cons,
        List.getD_eq_getElem m [] hsm]
      apply maskedScan_chunk cell (x[s]) ((x.drop (s + 1)).take (t - s - 1)) h
        (m[s]) ((m.drop (s + 1)).take (t - s - 1)) B hB
        (hm _ (List.getElem_mem hsm)) (hx _ (List.getElem_mem (by omega)))
        (fun r hr => hx r (List.mem_of_mem_drop (List.mem_of_mem_take hr)))
        (fun r hr => hm r (List.mem_of_mem_drop (List.mem_of_mem_take hr)))
        (by simp only [List.length_take, List.length_drop]; omega)
      intro r hr
      obtain ⟨u, hu1, hu2, hu3, hu4⟩ := mem_take_drop_getD m (s + 1)
        (t - s - 1) r hr
      refine hu4 ▸ hint u (by omega) (by omega) ?_
      intro hc
      rcases List.mem_cons.mp hc with hc | hc
      · omega
      · exact absurd (hrest_gt u hc) (by omega)
    have happ := maskedScan_append cell ((x.drop s).take (t - s)) (x.drop t) h
      ((m.drop s).take (t - s)) (m.drop t)
      (by simp only [List.length_take, List.length_drop]; omega)
    simp only [List.cons_append, runChunks, List.flatten_cons, List.append_eq]
    conv_rhs => rw [hxsplit, hmsplit]
    rw [happ, hA]
    have h1 : (runChunks cell x m (t :: (rest ++ [x.length]))
        (gruSeq cell ((x.drop s).take (t - s))
          (maskHidden (m.getD s []) h)).2).1.flatten =
        (maskedScan cell (x.drop t)
          (gruSeq cell ((x.drop s).take (t - s))
            (maskHidden (m.getD s []) h)).2 (m.drop t)).1 :=
      congrArg Prod.fst hIH
    have h2 : (runChunks cell x m (t :: (rest ++ [x.length]))
        (gruSeq cell ((x.drop s).take (t - s))
          (maskHidden (m.getD s []) h)).2).2 =
        (maskedScan cell (x.drop t)
          (gruSeq cell ((x.drop s).take (t - s))
            (maskHidden (m.getD s []) h)).2 (m.drop t)).2 :=
      congrArg Prod.snd hIH
    rw [← h1, ← h2]

/-! ### Characterization of the error behavior of `forward` -/

theorem exceptOk_false_iff {α : Type} (r : Except ShapeError α) :
    exceptOk r = false ↔ ∃ e, r = .error e := by
  cases r <;> simp [exceptOk]

theorem forwardChecked_ok_iff (mod : GRUModule) (x : Rows) (h : Hidden)
    (masks : MInput) :
    exceptOk (forwardChecked mod x h masks) = true ↔
      (hSize0 h = mod.num_layers ∧ hSize2 h = mod.hidden_dim ∧
        hSize1 h = xSize1 x) := by
  unfold forwardChecked
  rcases eq_or_ne (hSize0 h) mod.num_layers with h0 | h0
  · rcases eq_or_ne (hSize2 h) mod.hidden_dim with h2 | h2
    · rcases eq_or_ne (hSize1 h) (xSize1 x) with h1 | h1
      · rw [if_neg (not_not_intro h0), if_neg (not_not_intro h2),
          if_neg (not_not_intro h1)]
        constructor
        · intro _; exact ⟨h0, h2, h1⟩
        · intro _; split <;> rfl
      · rw [if_neg (not_not_intro h0), if_neg (not_not_intro h2), if_pos h1]
        simp [exceptOk, h1]
    · rw [if_neg (not_not_intro h0), if_pos h2]
      simp [exceptOk, h2]
  · rw [if_pos h0]
    simp [exceptOk, h0]

theorem forward_ok_iff (mod : GRUModule) (x : XInput) (h : Hidden)
    (masks : MInput) :
    exceptOk (mod.forward x h masks) = true ↔
      (inDim x = mod.input_dim ∧ hSize0 h = mod.num_layers ∧
        hSize2 h = mod.hidden_dim ∧ hSize1 h = xSize1 (promotedRows x)) := by
  cases x with
  | x2 xr =>
    by_cases hi : rSize1 xr = mod.input_dim
    · simp [GRUModule.forward, hi, inDim, promotedRows, forwardChecked_ok_iff]
    · simp [GRUModule.forward, hi, inDim, promotedRows, exceptOk]
  | x3 xs =>
    by_cases hi : xSize2 xs = mod.input_dim
    · simp [GRUModule.forward, hi, inDim, promotedRows, forwardChecked_ok_iff]
    · simp [GRUModule.forward, hi, inDim, promotedRows, exceptOk]

theorem forward_error_iff_aux (mod : GRUModule) (x : XInput) (h : Hidden)
    (masks : MInput) :
    (∃ e, mod.forward x h masks = .error e) ↔
      ¬(inDim x = mod.input_dim ∧ hSize0 h = mod.num_layers ∧
        hSize2 h = mod.hidden_dim ∧ hSize1 h = xSize1 (promotedRows x)) := by
  rw [← exceptOk_false_iff, ← forward_ok_iff mod x h masks]
  cases hok : exceptOk (mod.forward x h masks) <;> simp

theorem forwardChecked_mask_congr (mod : GRUModule) (x : Rows) (h : Hidden)
    (m1 m2 : MInput) (hs : flattenMask m1 = flattenMask m2)
    (ht : toRows m1 = toRows m2) :
    forwardChecked mod x h m1 = forwardChecked mod x h m2 := by
  unfold forwardChecked
  rw [hs, ht]

/-! ### Column independence and the zero-mask reset -/

theorem getD_mem_of_lt' {α : Type} (l : List α) (d : α) (n : Nat)
    (hn : n < l.length) : l.getD n d ∈ l := by
  rw [List.getD_eq_getElem l d hn]
  exact List.getElem_mem hn

theorem boundaries_le (m : MRows) (T : Nat) (hm : m.length = T) :
    ∀ n ∈ boundaries m T, n ≤ T := by
  intro n hn
  rcases List.mem_cons.mp hn with rfl | hn
  · omega
  · rcases List.mem_append.mp hn with hn | hn
    · have := (mem_splitIndices m n).mp hn; omega
    · simp only [List.mem_singleton] at hn; omega

theorem gruStepRow_fst_getElem? (cell : Cell) (xr : Row) (h : Hidden)
    (b : Nat) :
    (gruStepRow cell xr h).1[b]? =
      Option.map Prod.fst (Option.map₂ cell xr[b]? h[b]?) := by
  simp only [gruStepRow, List.getElem?_map, List.getElem?_zipWith]
  rcases xr[b]? with _ | a <;> rcases h[b]? with _ | c <;> rfl

theorem gruStepRow_snd_getElem? (cell : Cell) (xr : Row) (h : Hidden)
    (b : Nat) :
    (gruStepRow cell xr h).2[b]? =
      Option.map Prod.snd (Option.map₂ cell xr[b]? h[b]?) := by
  simp only [gruStepRow, List.getElem?_map, List.getElem?_zipWith]
  rcases xr[b]? with _ | a <;> rcases h[b]? with _ | c <;> rfl

theorem gruStepRow_agreeOff (cell : Cell) (xr : Row) (b : Nat)
    (h1 h2 : Hidden) (hA : AgreeOff b h1 h2) :
    AgreeOff b (gruStepRow cell xr h1).2 (gruStepRow cell xr h2).2 := by
  obtain ⟨hlen, hag⟩ := hA
  refine ⟨by rw [gruStepRow_snd_length, gruStepRow_snd_length, hlen], ?_⟩
  intro c hc
  rw [gruStepRow_snd_getElem?, gruStepRow_snd_getElem?, hag c hc]

theorem gruSeq_snd_agreeOff (cell : Cell) (xs : Rows) (b : Nat) :
    ∀ (h1 h2 : Hidden), AgreeOff b h1 h2 →
      AgreeOff b (gruSeq cell xs h1).2 (gruSeq cell xs h2).2 := by
  induction xs with
  | nil => intro h1 h2 hA; exact hA
  | cons xr xs ih =>
    intro h1 h2 hA
    simp only [gruSeq]
    exact ih _ _ (gruStepRow_agreeOff cell xr b h1 h2 hA)

theorem maskHidden_agreeOff (m : List ℚ) (b : Nat) (h1 h2 : Hidden)
    (hA : AgreeOff b h1 h2) :
    AgreeOff b (maskHidden m h1) (maskHidden m h2) := by
  obtain ⟨hlen, hag⟩ := hA
  refine ⟨by rw [maskHidden_length, maskHidden_length, hlen], ?_⟩
  intro c hc
  rw [maskHidden_getElem?, maskHidden_getElem?, hag c hc]

theorem gruSeq_snd_cols_shape (L D : Nat) (cell : Cell)
    (hc : CellShape L D cell) :
    ∀ (xs : Rows) (h : Hidden), HColsShape L D h →
      HColsShape L D (gruSeq cell xs h).2 := by
  intro xs
  induction xs with
  | nil => intro h hh; exact hh
  | cons xr xs ih =>
    intro h hh
    simp only [gruSeq]
    exact ih _ (gruStepRow_snd_shape L D cell hc xr h)

theorem colScale_zero (L D : Nat) (c : ColHid) (hc : ColShape L D c) :
    colScale 0 c = List.replicate L (List.replicate D 0) := by
  obtain ⟨hl, hv⟩ := hc
  rw [List.eq_replicate_iff]
  constructor
  · simpa [colScale] using hl
  · intro v hv'
    obtain ⟨u, hu, rfl⟩ := List.mem_map.mp hv'
    rw [vecScale_zero, hv u hu]

theorem maskHidden_zero_eq (L D : Nat) (m : List ℚ) (b : Nat)
    (h1 h2 : Hidden) (hA : AgreeOff b h1 h2)
    (hs1 : HColsShape L D h1) (hs2 : HColsShape L D h2)
    (hz : m.getD b 0 = 0) :
    maskHidden m h1 = maskHidden m h2 := by
  obtain ⟨hlen, hag⟩ := hA
  apply List.ext_getElem?
  intro c
  rw [maskHidden_getElem?, maskHidden_getElem?]
  by_cases hc : c = b
  · subst hc
    rcases hm : m[c]? with _ | q
    · rfl
    · have hq : q = 0 := by
        rw [List.getD_eq_getElem?_getD, hm] at hz
        simpa using hz
      subst hq
      rcases hh1 : h1[c]? with _ | c1 <;> rcases hh2 : h2[c]? with _ | c2
      · rfl
      · exfalso
        have := List.getElem?_eq_none_iff.mp hh1
        have := (List.getElem?_eq_some.mp hh2).1
        omega
      · exfalso
        have := List.getElem?_eq_none_iff.mp hh2
        have := (List.getElem?_eq_some.mp hh1).1
        omega
      · obtain ⟨hl1, he1⟩ := List.getElem?_eq_some.mp hh1
        obtain ⟨hl2, he2⟩ := List.getElem?_eq_some.mp hh2
        have hc1 : ColShape L D c1 := hs1 c1 (he1 ▸ List.getElem_mem hl1)
        have hc2 : ColShape L D c2 := hs2 c2 (he2 ▸ List.getElem_mem hl2)
        show some (colScale 0 c1) = some (colScale 0 c2)
        rw [colScale_zero L D c1 hc1, colScale_zero L D c2 hc2]
  · rw [hag c hc]

theorem runChunks_zero_reset (L D : Nat) (cell : Cell)
    (hc : CellShape L D cell) (x : Rows) (m : MRows) (t b : Nat)
    (hz : (m.getD t []).getD b 0 = 0) :
    ∀ (rest : List Nat) (s : Nat) (h1 h2 : Hidden),
      t ∈ s :: rest → List.Chain' (· < ·) (s :: rest) →
      (∀ n ∈ s :: rest, n ≤ x.length) →
      AgreeOff b h1 h2 → HColsShape L D h1 → HColsShape L D h2 →
      (runChunks cell x m (s :: rest) h1).1.flatten.drop (t - s) =
        (runChunks cell x m (s :: rest) h2).1.flatten.drop (t - s) := by
  intro rest
  induction rest with
  | nil => intro s h1 h2 _ _ _ _ _ _; rfl
  | cons e rest' ih =>
    intro s h1 h2 hmem hch hle hA hs1 hs2
    by_cases hts : t = s
    · subst hts
      have htemp : maskHidden (m.getD t []) h1 = maskHidden (m.getD t []) h2 :=
        maskHidden_zero_eq L D _ b h1 h2 hA hs1 hs2 hz
      simp only [runChunks, htemp]
    · have hte : t ∈ e :: rest' := by
        rcases List.mem_cons.mp hmem with rfl | hmem'
        · exact absurd rfl hts
        · exact hmem'
      have hse : s < e := (List.chain'_cons.mp hch).1
      have heT : e ≤ x.length := hle e (by simp)
      have het : e ≤ t := by
        rcases List.mem_cons.mp hte with rfl | hmem'
        · omega
        · have := (List.pairwise_cons.mp
            (List.chain'_iff_pairwise.mp (List.Chain'.tail hch))).1 t hmem'
          omega
      have hA' : AgreeOff b
          (gruSeq cell ((x.drop s).take (e - s)) (maskHidden (m.getD s []) h1)).2
          (gruSeq cell ((x.drop s).take (e - s)) (maskHidden (m.getD s []) h2)).2 :=
        gruSeq_snd_agreeOff cell _ b _ _
          (maskHidden_agreeOff (m.getD s []) b h1 h2 hA)
      have hs1' : HColsShape L D
          (gruSeq cell ((x.drop s).take (e - s)) (maskHidden (m.getD s []) h1)).2 :=
        gruSeq_snd_cols_shape L D cell hc _ _
          (maskHidden_cols_shape L D (m.getD s []) h1 hs1)
      have hs2' : HColsShape L D
          (gruSeq cell ((x.drop s).take (e - s)) (maskHidden (m.getD s []) h2)).2 :=
        gruSeq_snd_cols_shape L D cell hc _ _
          (maskHidden_cols_shape L D (m.getD s []) h2 hs2)
      have hIH := ih e _ _ hte (List.Chain'.tail hch)
        (fun n hn => hle n (by simp [hn])) hA' hs1' hs2'
      have hw1 : (gruSeq cell ((x.drop s).take (e - s))
          (maskHidden (m.getD s []) h1)).1.length = e - s := by
        rw [gruSeq_fst_length, List.length_take, List.length_drop]; omega
      have hw2 : (gruSeq cell ((x.drop s).take (e - s))
          (maskHidden (m.getD s []) h2)).1.length = e - s := by
        rw [gruSeq_fst_length, List.length_take, List.length_drop]; omega
      simp only [runChunks, List.flatten_cons]
      rw [List.drop_append_eq_append_drop, List.drop_append_eq_append_drop,
        List.drop_eq_nil_of_le (by omega : (gruSeq cell ((x.drop s).take (e - s))
          (maskHidden (m.getD s []) h1)).1.length ≤ t - s),
        List.drop_eq_nil_of_le (by omega : (gruSeq cell ((x.drop s).take (e - s))
          (maskHidden (m.getD s []) h2)).1.length ≤ t - s),
        hw1, hw2, List.nil_append, List.nil_append,
        show t - s - (e - s) = t - e by omega]
      exact hIH

theorem hSizes_of_shape (L B D : Nat) (h : Hidden) (hs : HShape L B D h)
    (hB : 0 < B) (hL : 0 < L) :
    hSize0 h = L ∧ hSize1 h = B ∧ hSize2 h = D := by
  obtain ⟨hlen, hcols⟩ := hs
  cases h with
  | nil => simp at hlen; omega
  | cons c h' =>
    obtain ⟨hcl, hcv⟩ := hcols c (by simp)
    cases c with
    | nil => simp at hcl; omega
    | cons v c' =>
      exact ⟨by simpa [hSize0] using hcl, by simpa [hSize1] using hlen,
        by simpa [hSize2] using hcv v (by simp)⟩

theorem xSizes_of_shape (B I : Nat) (x : Rows) (hs : XShape B I x)
    (hT : 0 < x.length) (hB : 0 < B) : xSize1 x = B ∧ xSize2 x = I := by
  cases x with
  | nil => simp at hT
  | cons r x' =>
    obtain ⟨hrl, hrv⟩ := hs r (by simp)
    cases r with
    | nil => simp at hrl; omega
    | cons v r' =>
      exact ⟨by simpa [xSize1] using hrl, by simpa [xSize2] using hrv v (by simp)⟩

theorem forward_x3_dispatch (mod : GRUModule) (x : Rows) (h : Hidden)
    (m : MRows) (h1 : xSize2 x = mod.input_dim)
    (h2 : hSize0 h = mod.num_layers) (h3 : hSize2 h = mod.hidden_dim)
    (h4 : hSize1 h = xSize1 x) :
    mod.forward (.x3 x) h (.m3 m) =
      if x.length = 1 then
        .ok (.out2 (forwardSingle mod.cell mod.ln (x.headD []) h m.flatten).1,
          (forwardSingle mod.cell mod.ln (x.headD []) h m.flatten).2)
      else
        .ok (.out3 (forwardMulti mod.cell mod.ln x h m).1,
          (forwardMulti mod.cell mod.ln x h m).2) := by
  simp only [GRUModule.forward, forwardChecked, flattenMask, toRows]
  rw [if_neg (not_not_intro h1), if_neg (not_not_intro h2),
    if_neg (not_not_intro h3), if_neg (not_not_intro h4)]

/-! ### Claim theorems -/

/-- C8: at construction, the dropout handed to the recurrence primitive
is the configured dropout exactly when more than one layer is stacked,
and is forced to zero whenever `num_layers ≤ 1`, regardless of the
configured value. -/
theorem init_dropout (i d n : Nat) (p : ℚ) (cell : Cell) (ln : Vec → Vec) :
    (1 < n → (GRUModule.init i d n p cell ln).gruDropout = p) ∧
    (n ≤ 1 → (GRUModule.init i d n p cell ln).gruDropout = 0) := by
  constructor
  · intro hn; simp [GRUModule.init, hn]
  · intro hn; simp [GRUModule.init, Nat.not_lt.mpr hn]

theorem init_dropout_witness :
    (1 < 2 ∧ (GRUModule.init 1 1 2 (1/2) cellW lnW).gruDropout = 1/2) ∧
    (1 ≤ 1 ∧ (GRUModule.init 1 1 1 (1/2) cellW lnW).gruDropout = 0) :=
  ⟨⟨by decide, (init_dropout 1 1 2 (1/2) cellW lnW).1 (by decide)⟩,
    ⟨by decide, (init_dropout 1 1 1 (1/2) cellW lnW).2 (by decide)⟩⟩

/-- C6 (amended): for every valid rank-3 call, the returned hidden state
has the input hidden state's shape `(num_layers, batch, hidden_dim)` and
the output's batch size and feature dimension equal the input's batch
size and `hidden_dim`; for `time > 1` the rank-3 output's time length
equals the input's, while for `time == 1` the single-step path returns a
rank-2 `(batch, hidden_dim)` output with the time axis squeezed away. -/
theorem forward_shapes (mod : GRUModule) (x : Rows) (h : Hidden) (m : MRows)
    (B : Nat) (hL : 0 < mod.num_layers) (hB : 0 < B) (hT : 0 < x.length)
    (hxs : XShape B mod.input_dim x)
    (hhs : HShape mod.num_layers B mod.hidden_dim h)
    (hms : MShape B m) (hmlen : m.length = x.length)
    (hcell : CellShape mod.num_layers mod.hidden_dim mod.cell)
    (hln : LnLen mod.ln) :
    ∃ y h', mod.forward (.x3 x) h (.m3 m) = .ok (y, h') ∧
      HShape mod.num_layers B mod.hidden_dim h' ∧
      (x.length = 1 → ∃ r, y = .out2 r ∧ r.length = B ∧
        ∀ v ∈ r, v.length = mod.hidden_dim) ∧
      (1 < x.length → ∃ rows, y = .out3 rows ∧ rows.length = x.length ∧
        ∀ r ∈ rows, r.length = B ∧ ∀ v ∈ r, v.length = mod.hidden_dim) := by
  obtain ⟨hs0, hs1, hs2⟩ := hSizes_of_shape _ _ _ h hhs hB hL
  obtain ⟨hx1, hx2⟩ := xSizes_of_shape B mod.input_dim x hxs hT hB
  rw [forward_x3_dispatch mod x h m hx2 hs0 hs2 (by rw [hs1, hx1])]
  by_cases hT1 : x.length = 1
  · rw [if_pos hT1]
    cases x with
    | nil => simp at hT1
    | cons x0 x' =>
      have hx'nil : x' = [] := by
        simp only [List.length_cons, Nat.add_left_eq_self] at hT1
        exact List.length_eq_zero.mp hT1
      subst hx'nil
      cases m with
      | nil => simp at hmlen
      | cons m0 m' =>
        have hm'nil : m' = [] := by simpa using hmlen
        subst hm'nil
        have hm0 : ([m0] : MRows).flatten = m0 := by simp
        have htemp_len : (maskHidden (([m0] : MRows).flatten) h).length = B := by
          rw [hm0, maskHidden_length, hms m0 (by simp), hhs.1]; omega
        have htemp_shape :
            HColsShape mod.num_layers mod.hidden_dim
              (maskHidden (([m0] : MRows).flatten) h) :=
          maskHidden_cols_shape _ _ _ h hhs.2
        have hx0B : x0.length = B := (hxs x0 (by simp)).1
        have hstep_len :
            (gruStepRow mod.cell x0 (maskHidden (([m0] : MRows).flatten) h)).2.length = B := by
          rw [gruStepRow_snd_length, hx0B, htemp_len]; omega
        refine ⟨_, _, rfl, ⟨?_, ?_⟩, fun _ => ⟨_, rfl, ?_, ?_⟩, fun hc => by omega⟩
        · simpa [forwardSingle, gruSeq, List.headD_cons] using hstep_len
        · intro c hc
          refine gruStepRow_snd_shape _ _ mod.cell hcell x0
            (maskHidden (([m0] : MRows).flatten) h) c ?_
          simpa [forwardSingle, gruSeq, List.headD_cons] using hc
        · simp only [forwardSingle, gruSeq, List.headD_cons, List.length_map]
          rw [gruStepRow_fst_length, hx0B, htemp_len]; omega
        · intro v hv
          simp only [forwardSingle, gruSeq, List.headD_cons, List.mem_map] at hv
          obtain ⟨u, hu, rfl⟩ := hv
          rw [hln u]
          exact gruStepRow_fst_shape _ _ mod.cell hcell x0 _ u hu
  · rw [if_neg hT1]
    have hxB : ∀ r ∈ x, r.length = B := fun r hr => (hxs r hr).1
    have hbs_chain : List.Chain' (· < ·) (boundaries m x.length) :=
      boundaries_chain m x.length (by omega) hmlen.le
    have hbs_le : ∀ n ∈ boundaries m x.length, n ≤ x.length := by
      intro n hn
      rcases List.mem_cons.mp hn with rfl | hn
      · omega
      · rcases List.mem_append.mp hn with hn | hn
        · have := (mem_splitIndices m n).mp hn; omega
        · simp only [List.mem_singleton] at hn; omega
    obtain ⟨ho1, ho2, ho3⟩ := runChunks_shapes mod.num_layers mod.hidden_dim B
      mod.cell hcell x m hxB hms hmlen (boundaries m x.length) h
      hbs_chain hbs_le hhs.1 hhs.2
    have hflatlen :
        ((runChunks mod.cell x m (boundaries m x.length) h).1.flatten).length =
          x.length := by
      have := runChunks_flatten_length mod.cell x m
        (splitIndices m ++ [x.length]) 0 h
        (List.Chain'.imp (fun a b => le_of_lt) hbs_chain)
        (fun n hn => hbs_le n (by simp [boundaries, hn]))
        (by omega)
      rw [List.getLastD_concat, Nat.sub_zero] at this
      exact this
    refine ⟨_, _, rfl, ⟨?_, ?_⟩, fun hc => by omega, fun _ => ⟨_, rfl, ?_, ?_⟩⟩
    · simpa [forwardMulti] using ho2
    · intro c hc
      exact ho3 c (by simpa [forwardMulti] using hc)
    · simp only [forwardMulti, List.length_map]
      exact hflatlen
    · intro r hr
      simp only [forwardMulti, List.mem_map] at hr
      obtain ⟨u, hu, rfl⟩ := hr
      obtain ⟨hu1, hu2⟩ := ho1 u hu
      refine ⟨by simpa using hu1, ?_⟩
      intro v hv
      simp only [List.mem_map] at hv
      obtain ⟨w, hw, rfl⟩ := hv
      rw [hln w]
      exact hu2 w hw

/-- C6 counterexample: a rank-3 call with time length 1 and batch size 2
returns a rank-2 output whose leading dimension is the batch size 2, not
the input's time length 1 — the time axis is squeezed away by the
single-step path, refuting the claim for rank-3 inputs with
`time == 1`. -/
theorem single_step_time_axis_cex :
    ([[[(1 : ℚ)], [2]]] : Rows).length = 1 ∧
    okOutSize0 (modW.forward (.x3 [[[(1 : ℚ)], [2]]]) [[[0]], [[0]]]
      (.m3 [[1, 1]])) = some 2 := by
  constructor
  · rfl
  · decide

theorem forward_shapes_witness :
    (0 : Nat) < 1 ∧ 0 < ([[[(1 : ℚ)]], [[2]]] : Rows).length ∧
    ∃ y h', modW.forward (.x3 [[[(1 : ℚ)]], [[2]]]) [[[5]]] (.m3 [[1], [0]]) =
        .ok (y, h') ∧
      HShape modW.num_layers 1 modW.hidden_dim h' ∧
      (([[[(1 : ℚ)]], [[2]]] : Rows).length = 1 → ∃ r, y = .out2 r ∧
        r.length = 1 ∧ ∀ v ∈ r, v.length = modW.hidden_dim) ∧
      (1 < ([[[(1 : ℚ)]], [[2]]] : Rows).length → ∃ rows, y = .out3 rows ∧
        rows.length = ([[[(1 : ℚ)]], [[2]]] : Rows).length ∧
        ∀ r ∈ rows, r.length = 1 ∧ ∀ v ∈ r, v.length = modW.hidden_dim) :=
  ⟨by decide, by decide,
    forward_shapes modW [[[(1 : ℚ)]], [[2]]] [[[5]]] [[1], [0]] 1
      (by decide) (by decide) (by decide)
      (by unfold XShape; decide)
      (by unfold HShape HColsShape ColShape; decide)
      (by unfold MShape; decide) (by decide)
      (by
        intro v c
        refine ⟨rfl, rfl, ?_⟩
        intro u hu
        have hu' : u ∈ ([[(0 : ℚ)]] : ColHid) := hu
        rw [List.mem_singleton.mp hu']
        rfl)
      (fun v => rfl)⟩

/-- C7: a rank-2 call (single-step form, with its `(B,)`-shaped mask) is
auto-promoted to a length-1 sequence and returns exactly the result of
the corresponding rank-3 call with time length 1. -/
theorem forward_rank2_eq_rank3 (mod : GRUModule) (xr : Row) (h : Hidden)
    (m : List ℚ) :
    mod.forward (.x2 xr) h (.m2 m) = mod.forward (.x3 [xr]) h (.m3 [m]) := by
  have hfl : flattenMask (.m2 m) = flattenMask (.m3 [m]) := by
    simp [flattenMask]
  have htr : toRows (.m2 m) = toRows (.m3 [m]) := rfl
  simp only [GRUModule.forward]
  rw [forwardChecked_mask_congr mod [xr] h (.m2 m) (.m3 [m]) hfl htr]
  rfl

/-- C4: if the mask is zero at time `t` for batch column `b`, the output
row that `forward` produces at time `t` (in particular its entry for
column `b`) is independent of the hidden state carried in for column
`b`: two well-shaped hidden states that agree on every column except `b`
yield the same output at time `t`.  (The mask application at the chunk
that starts at `t` zeroes column `b`'s state, and the recurrence treats
columns independently.) -/
theorem mask_zero_reset (mod : GRUModule) (x : Rows) (h1 h2 : Hidden)
    (m : MRows) (t b B : Nat) (hL : 0 < mod.num_layers) (hB : 0 < B)
    (hxs : XShape B mod.input_dim x)
    (hh1 : HShape mod.num_layers B mod.hidden_dim h1)
    (hh2 : HShape mod.num_layers B mod.hidden_dim h2)
    (hms : MShape B m) (hmlen : m.length = x.length)
    (hcell : CellShape mod.num_layers mod.hidden_dim mod.cell)
    (ht : t < x.length) (hb : b < B)
    (hz : (m.getD t []).getD b 0 = 0) (hA : AgreeOff b h1 h2) :
    okOutRowAt (mod.forward (.x3 x) h1 (.m3 m)) t =
      okOutRowAt (mod.forward (.x3 x) h2 (.m3 m)) t := by
  obtain ⟨ha0, ha1, ha2⟩ := hSizes_of_shape _ _ _ h1 hh1 hB hL
  obtain ⟨hc0, hc1, hc2⟩ := hSizes_of_shape _ _ _ h2 hh2 hB hL
  obtain ⟨hx1, hx2⟩ := xSizes_of_shape B mod.input_dim x hxs (by omega) hB
  rw [forward_x3_dispatch mod x h1 m hx2 ha0 ha2 (by rw [ha1, hx1]),
    forward_x3_dispatch mod x h2 m hx2 hc0 hc2 (by rw [hc1, hx1])]
  by_cases hT1 : x.length = 1
  · rw [if_pos hT1, if_pos hT1]
    have ht0 : t = 0 := by omega
    subst ht0
    cases m with
    | nil => rw [hT1] at hmlen; simp at hmlen
    | cons m0 m' =>
      have hm'nil : m' = [] := by
        rw [hT1] at hmlen
        simpa using hmlen
      subst hm'nil
      have hzf : (([m0] : MRows).flatten).getD b 0 = 0 := by simpa using hz
      have htemp : maskHidden (([m0] : MRows).flatten) h1 =
          maskHidden (([m0] : MRows).flatten) h2 :=
        maskHidden_zero_eq _ _ _ b h1 h2 hA hh1.2 hh2.2 hzf
      simp only [okOutRowAt, outRowAt, forwardSingle, htemp]
  · rw [if_neg hT1, if_neg hT1]
    have htb : t ∈ boundaries m x.length := by
      rcases Nat.eq_zero_or_pos t with rfl | htpos
      · exact List.mem_cons_self _ _
      · apply List.mem_cons_of_mem
        apply List.mem_append_left
        apply (mem_splitIndices m t).mpr
        have hrowlen : (m.getD t []).length = B :=
          hms _ (getD_mem_of_lt m t (by omega))
        exact ⟨htpos, by omega,
          (m.getD t []).getD b 0,
          getD_mem_of_lt' (m.getD t []) 0 b (by omega), hz⟩
    have hdrop := runChunks_zero_reset mod.num_layers mod.hidden_dim mod.cell
      hcell x m t b hz (splitIndices m ++ [x.length]) 0 h1 h2
      (by simpa [boundaries] using htb)
      (by
        have := boundaries_chain m x.length (by omega) hmlen.le
        simpa [boundaries] using this)
      (by
        intro n hn
        exact boundaries_le m x.length hmlen n (by simpa [boundaries] using hn))
      hA hh1.2 hh2.2
    rw [Nat.sub_zero] at hdrop
    simp only [okOutRowAt, outRowAt, forwardMulti, boundaries,
      List.getElem?_map]
    have e1 : (runChunks mod.cell x m (0 :: (splitIndices m ++ [x.length]))
          h1).1.flatten[t]? =
        (runChunks mod.cell x m (0 :: (splitIndices m ++ [x.length]))
          h2).1.flatten[t]? := by
      have h00 : ((runChunks mod.cell x m (0 :: (splitIndices m ++ [x.length]))
            h1).1.flatten.drop t)[0]? =
          ((runChunks mod.cell x m (0 :: (splitIndices m ++ [x.length]))
            h2).1.flatten.drop t)[0]? := by
        rw [hdrop]
      rw [List.getElem?_drop, List.getElem?_drop, Nat.add_zero] at h00
      exact h00
    rw [e1]

theorem mask_zero_reset_witness :
    ((([[(1 : ℚ)], [0]] : MRows).getD 1 []).getD 0 0 = 0) ∧
    okOutRowAt (modW.forward (.x3 [[[(1 : ℚ)]], [[2]]]) [[[5]]]
        (.m3 [[1], [0]])) 1 =
      okOutRowAt (modW.forward (.x3 [[[(1 : ℚ)]], [[2]]]) [[[7]]]
        (.m3 [[1], [0]])) 1 :=
  ⟨by decide,
    mask_zero_reset modW [[[(1 : ℚ)]], [[2]]] [[[5]]] [[[7]]] [[1], [0]] 1 0 1
      (by decide) (by decide)
      (by unfold XShape; decide)
      (by unfold HShape HColsShape ColShape; decide)
      (by unfold HShape HColsShape ColShape; decide)
      (by unfold MShape; decide) (by decide)
      (by
        intro v c
        refine ⟨rfl, rfl, ?_⟩
        intro u hu
        have hu' : u ∈ ([[(0 : ℚ)]] : ColHid) := hu
        rw [List.mem_singleton.mp hu']
        rfl)
      (by decide) (by decide) (by decide)
      (by
        refine ⟨rfl, ?_⟩
        intro c hc
        match c with
        | 0 => exact absurd rfl hc
        | Nat.succ n => rfl)⟩

/-- C5 (amended): a `forward` call fails with a contract-violation error
exactly when the input feature dimension, the hidden state's layer
count, the hidden state's feature dimension, or the hidden state's batch
size against `x`'s batch size mismatches; the mask argument is not
validated at all (the failure condition does not mention `masks`). -/
theorem forward_error_iff (mod : GRUModule) (x : XInput) (h : Hidden)
    (masks : MInput) :
    (∃ e, mod.forward x h masks = .error e) ↔
      ¬(inDim x = mod.input_dim ∧ hSize0 h = mod.num_layers ∧
        hSize2 h = mod.hidden_dim ∧ hSize1 h = xSize1 (promotedRows x)) :=
  forward_error_iff_aux mod x h masks

/-- C5 counterexample: `x` and `rnn_states` have batch size 2 while the
mask has batch size 1, yet `forward` succeeds — the claimed
contract-violation failure on a mask batch mismatch does not happen. -/
theorem mask_batch_unchecked_cex :
    xSize1 (promotedRows (.x2 [[1], [2]])) = 2 ∧
    hSize1 [[[(0 : ℚ)]], [[0]]] = 2 ∧
    mshape (.m2 [1]) = [1] ∧
    exceptOk (modW.forward (.x2 [[1], [2]]) [[[0]], [[0]]] (.m2 [1])) = true := by
  refine ⟨rfl, rfl, rfl, ?_⟩
  decide

/-- C10: mask entries act purely as elementwise multiplicative factors
on the carried hidden state — the state fed into the recurrence at
column `b` is the scalar `m[b]` times the carried column state, for an
arbitrary rational mask value — and mask values are never inspected by
the contract checks: calls differing only in mask values (same mask
shape) succeed or fail together. -/
theorem mask_scales_state (mrow : List ℚ) (h : Hidden) (b : Nat)
    (hbm : b < mrow.length) (hbh : b < h.length) :
    (maskHidden mrow h)[b]? = some (colScale (mrow.getD b 0) (h.getD b [])) ∧
    ∀ (mod : GRUModule) (x : XInput) (hh : Hidden) (m1 m2 : MInput),
      mshape m1 = mshape m2 →
      exceptOk (mod.forward x hh m1) = exceptOk (mod.forward x hh m2) := by
  constructor
  · rw [maskHidden_getElem?, List.getElem?_eq_getElem hbm,
      List.getElem?_eq_getElem hbh, List.getD_eq_getElem mrow 0 hbm,
      List.getD_eq_getElem h [] hbh]
    rfl
  · intro mod x hh m1 m2 _
    by_cases hcond : (inDim x = mod.input_dim ∧ hSize0 hh = mod.num_layers ∧
        hSize2 hh = mod.hidden_dim ∧ hSize1 hh = xSize1 (promotedRows x))
    · rw [(forward_ok_iff mod x hh m1).mpr hcond,
        (forward_ok_iff mod x hh m2).mpr hcond]
    · have b1 := (forward_ok_iff mod x hh m1).not.mpr hcond
      have b2 := (forward_ok_iff mod x hh m2).not.mpr hcond
      rw [Bool.not_eq_true] at b1 b2
      rw [b1, b2]

/-- C1: for a multi-step input (`time > 1`) with a binary mask of shape
`(time, batch)` and agreeing batch dimensions, the chunked multi-step
path computes exactly the output sequence and ending hidden state of
invoking the single-step path `time` times sequentially, threading the
returned hidden state into each next call (exact equality in the
embedding's exact arithmetic, hence within floating tolerance in the
source). -/
theorem forwardMulti_eq_singleLoop (cell : Cell) (ln : Vec → Vec) (x : Rows)
    (h : Hidden) (m : MRows) (hT : 1 < x.length) (hTm : m.length = x.length)
    (hx : ∀ r ∈ x, r.length = h.length) (hm : ∀ r ∈ m, r.length = h.length)
    (hbin : ∀ r ∈ m, ∀ q ∈ r, q = 0 ∨ q = 1) :
    forwardMulti cell ln x h m = singleLoop cell ln x h m := by
  have hmain := runChunks_eq_maskedScan cell x m h.length hx hm hTm
    (splitIndices m) 0 h (by omega)
    (fun u hu => by
      have := (mem_splitIndices m u).mp hu
      exact ⟨by omega, by omega⟩)
    (splitIndices_chain m)
    (fun u hu1 hu2 hmem q hq => by
      have hrow : m.getD u [] ∈ m := getD_mem_of_lt m u (by omega)
      rcases hbin _ hrow q hq with h0 | h1
      · exact absurd ((mem_splitIndices m u).mpr
          ⟨by omega, by omega, q, hq, h0⟩) hmem
      · exact h1)
    rfl
  rw [List.drop_zero, List.drop_zero] at hmain
  have h1 : (runChunks cell x m (0 :: (splitIndices m ++ [x.length])) h).1.flatten =
      (maskedScan cell x h m).1 := congrArg Prod.fst hmain
  have h2 : (runChunks cell x m (0 :: (splitIndices m ++ [x.length])) h).2 =
      (maskedScan cell x h m).2 := congrArg Prod.snd hmain
  rw [singleLoop_eq_maskedScan]
  simp only [forwardMulti, boundaries]
  rw [h1, h2]

theorem forwardMulti_eq_singleLoop_witness :
    1 < ([[[(1 : ℚ)]], [[2]]] : Rows).length ∧
    forwardMulti cellW lnW [[[(1 : ℚ)]], [[2]]] [[[3]]] [[1], [0]] =
      singleLoop cellW lnW [[[(1 : ℚ)]], [[2]]] [[[3]]] [[1], [0]] :=
  ⟨by decide,
    forwardMulti_eq_singleLoop cellW lnW [[[(1 : ℚ)]], [[2]]] [[[3]]]
      [[1], [0]] (by decide) (by decide) (by decide) (by decide) (by decide)⟩

/-- C2: the multi-step path's boundary list is `[0] + splits + [time]`,
where the splits are exactly the row indices `1 ≤ t < time` whose mask
row contains a zero in some batch column; the list is strictly
increasing, its adjacent pairs define half-open chunk ranges that cover
`[0, time)` exactly once in increasing order without overlap, and when
no scanned row contains a zero the boundary list is exactly
`[0, time]`. -/
theorem boundaries_partition (m : MRows) (T : Nat) (hT : 1 < T)
    (hm : m.length = T) :
    (∀ t, t ∈ splitIndices m ↔ 1 ≤ t ∧ t < T ∧ ∃ q ∈ m.getD t [], q = 0) ∧
    List.Chain' (· < ·) (boundaries m T) ∧
    (((boundaries m T).zip (boundaries m T).tail).map
        (fun p => List.range' p.1 (p.2 - p.1))).flatten = List.range T ∧
    ((∀ t, 1 ≤ t → t < T → ∀ q ∈ m.getD t [], q ≠ 0) →
      boundaries m T = [0, T]) := by
  refine ⟨fun t => by rw [mem_splitIndices, hm],
    boundaries_chain m T (by omega) hm.le, ?_, ?_⟩
  · have hch : List.Chain' (· ≤ ·) (0 :: (splitIndices m ++ [T])) :=
      List.Chain'.imp (fun a b => le_of_lt)
        (boundaries_chain m T (by omega) hm.le)
    have hj := chunksJoin (splitIndices m ++ [T]) 0 hch
    rw [List.getLastD_concat] at hj
    simpa [boundaries, List.range_eq_range'] using hj
  · intro hz
    have hnil : splitIndices m = [] := by
      rw [List.eq_nil_iff_forall_not_mem]
      intro t ht
      obtain ⟨h1, h2, q, hq, hq0⟩ := (mem_splitIndices m t).mp ht
      exact hz t h1 (by omega) q hq hq0
    simp [boundaries, hnil]

theorem boundaries_partition_witness :
    (1 : Nat) < 2 ∧ ([[(1 : ℚ)], [0]] : MRows).length = 2 ∧
    ((∀ t, t ∈ splitIndices [[(1 : ℚ)], [0]] ↔
        1 ≤ t ∧ t < 2 ∧ ∃ q ∈ ([[(1 : ℚ)], [0]] : MRows).getD t [], q = 0) ∧
      List.Chain' (· < ·) (boundaries [[(1 : ℚ)], [0]] 2) ∧
      (((boundaries [[(1 : ℚ)], [0]] 2).zip
            (boundaries [[(1 : ℚ)], [0]] 2).tail).map
          (fun p => List.range' p.1 (p.2 - p.1))).flatten = List.range 2 ∧
      ((∀ t, 1 ≤ t → t < 2 → ∀ q ∈ ([[(1 : ℚ)], [0]] : MRows).getD t [], q ≠ 0) →
        boundaries [[(1 : ℚ)], [0]] 2 = [0, 2])) :=
  ⟨by decide, by decide,
    boundaries_partition [[(1 : ℚ)], [0]] 2 (by decide) (by decide)⟩

/-- C3: the chunk loop processes the adjacent boundary pairs in order;
for each chunk it applies the mask row at the chunk's start index to the
carried hidden state exactly once, before the recurrence (`chunkOut` /
`chunkStep` mask first and never touch the recurrence's result), runs
the recurrence over the chunk's sub-sequence, and carries the
recurrence's ending state into the next chunk (the `foldl` / `scanl` of
`chunkStep`). -/
theorem runChunks_mask_once (cell : Cell) (x : Rows) (m : MRows) :
    ∀ (bs : List Nat) (h : Hidden),
      (runChunks cell x m bs h).2 =
        (bs.zip bs.tail).foldl (chunkStep cell x m) h ∧
      (runChunks cell x m bs h).1 =
        ((bs.zip bs.tail).zip
            (List.scanl (chunkStep cell x m) h (bs.zip bs.tail))).map
          (fun pc => chunkOut cell x m pc.2 pc.1) := by
  intro bs
  induction bs with
  | nil => intro h; exact ⟨rfl, rfl⟩
  | cons s rest ih =>
    cases rest with
    | nil => intro h; exact ⟨rfl, rfl⟩
    | cons e rest' =>
      intro h
      obtain ⟨ih1, ih2⟩ := ih (chunkStep cell x m h (s, e))
      constructor
      · simp only [runChunks, List.tail_cons, List.zip_cons_cons,
          List.foldl_cons]
        exact ih1
      · simp only [runChunks, List.tail_cons, List.zip_cons_cons,
          List.scanl_cons, List.singleton_append, List.map_cons]
        exact congrArg (List.cons _) ih2

theorem mask_scales_state_witness :
    0 < ([(1/2 : ℚ)]).length ∧ 0 < ([[[(4 : ℚ)]]] : Hidden).length ∧
    ((maskHidden [(1/2 : ℚ)] [[[4]]])[0]? =
        some (colScale (([(1/2 : ℚ)]).getD 0 0)
          (([[[(4 : ℚ)]]] : Hidden).getD 0 [])) ∧
      ∀ (mod : GRUModule) (x : XInput) (hh : Hidden) (m1 m2 : MInput),
        mshape m1 = mshape m2 →
        exceptOk (mod.forward x hh m1) = exceptOk (mod.forward x hh m2)) :=
  ⟨by decide, by decide,
    mask_scales_state [(1/2 : ℚ)] [[[4]]] 0 (by decide) (by decide)⟩

end RNN
